import Mathlib

/-!
Shallow embedding of `src/vector.h`: a dynamic array `Vector<T>` built on a
raw-memory block `RawMemory<T>`.

Modelling choices:
* A vector state is the list of live elements `[0, size)` together with the
  block capacity (`Vec`); `size_` is the length of the element list.
* Element operations that may throw (a user type's constructor or copy) are
  modelled by `Option`-valued functions: `none` means the operation throws.
  Move construction and move assignment are modelled as value-preserving and
  non-throwing; the code selects the move path of `SafeMove` only when the
  move constructor is `noexcept` or when no copy constructor exists.
* The `if constexpr` dispatch in `Vector<T>::SafeMove` is driven by a record
  of the element type's compile-time traits (`Traits`).
* For exception-safety claims, an operation returns `Except` and the error
  carries the observable state after the exception propagates (`ExcState`):
  the reported size and capacity, the per-slot liveness of the original block
  over `[0, size)` (`none` = the slot's element was destroyed), and the list
  of elements constructed in the new block that are never destroyed.
-/

/-- Compile-time traits of the element type `T`, driving the `if constexpr`
dispatch in `Vector<T>::SafeMove`: whether `T`'s move constructor is
`noexcept` and whether `T` is copy-constructible. -/
structure Traits where
  nothrowMove : Bool
  copyCtor : Bool
deriving DecidableEq, Repr

/-- State of a `Vector<T>`: the live elements occupying slots `[0, size_)` of
the owned block, and the block's capacity `data_.Capacity()`. -/
structure Vec (α : Type) where
  elems : List α
  cap : Nat
deriving DecidableEq, Repr

namespace Vec

variable {α : Type}

/-- Vector size `size_`: the number of live elements. -/
def size (v : Vec α) : Nat := v.elems.length

/-- Representation invariant of `Vector<T>`: `size_ ≤ data_.Capacity()`. -/
def wf (v : Vec α) : Prop := v.size ≤ v.cap

instance (v : Vec α) : Decidable v.wf := by unfold wf; infer_instance

/-- Semantics of `std::uninitialized_copy_n(from, n, to)` with a fallible
element copy: copy each element in order; on a failure the already
constructed copies in the destination are destroyed and the exception
propagates (result `none`), the sources are left intact. -/
def copyList (copy : α → Option α) : List α → Option (List α)
  | [] => some []
  | x :: xs =>
    match copy x with
    | none => none
    | some y =>
      match copyList copy xs with
      | none => none
      | some ys => some (y :: ys)

/-- Condition of the `if constexpr` in `Vector<T>::SafeMove`:
`std::is_nothrow_move_constructible_v<T> || !std::is_copy_constructible_v<T>`. -/
def moveBranch (tr : Traits) : Bool := tr.nothrowMove || !tr.copyCtor

/-- Embedding of `Vector<T>::SafeMove(from, size, to)`: transfer the `size`
source elements into the destination (move branch or copy branch by
`moveBranch`), then `std::destroy_n(from, size)`.  Returns the destination
contents on success (`none` on a throw) paired with the source elements that
are still alive afterwards: `[]` when the transfer succeeded (the final
`destroy_n` ran), the intact sources when the copy branch threw. -/
def SafeMove (tr : Traits) (copy : α → Option α) (src : List α) :
    Option (List α) × List α :=
  match (if moveBranch tr then some src else copyList copy src) with
  | some dst => (some dst, [])
  | none => (none, src)

/-- New block capacity chosen by the reallocating paths
(`EmplaceBack`, `EmplaceWithReallocate`): `size_ == 0 ? 1 : size_ * 2`. -/
def newCap (v : Vec α) : Nat := if v.size = 0 then 1 else v.size * 2

/-- Embedding of `Vector<T>::Reserve(new_capacity)`: no-op unless
`new_capacity > data_.Capacity()`; otherwise allocate a block of exactly
`new_capacity`, `SafeMove` the elements across, swap the blocks. -/
def Reserve (v : Vec α) (newCapacity : Nat) : Vec α :=
  if newCapacity ≤ v.cap then v else ⟨v.elems, newCapacity⟩

/-- Embedding of `Vector<T>::Resize(new_size)` with default value `d` for
`std::uninitialized_value_construct_n`: shrink destroys the trailing
elements (no deallocation), growth reserves then value-constructs the new
slots, equal size is a no-op. -/
def Resize (d : α) (v : Vec α) (n : Nat) : Vec α :=
  if n < v.size then ⟨v.elems.take n, v.cap⟩
  else if v.size < n then ⟨(Reserve v n).elems ++ List.replicate (n - v.size) d, (Reserve v n).cap⟩
  else v

/-- Embedding of `Vector<T>::EmplaceBack(args...)`, success path: when full,
allocate `newCap` slots, construct the new element at index `size_` of the
new block, `SafeMove` the old elements to `[0, size_)`, swap blocks;
otherwise construct into the next free slot.  Either way the value sequence
becomes `elems ++ [x]`. -/
def EmplaceBack (v : Vec α) (x : α) : Vec α :=
  if v.size = v.cap then ⟨v.elems ++ [x], newCap v⟩
  else ⟨v.elems ++ [x], v.cap⟩

/-- Embedding of `Vector<T>::PopBack()`: `assert(size_ > 0)` is modelled as
`none` (the debug assertion fires); otherwise destroy the element at
`size_ - 1` and decrement `size_`, never deallocating. -/
def PopBack (v : Vec α) : Option (Vec α) :=
  if v.size = 0 then none
  else some ⟨v.elems.dropLast, v.cap⟩

/-- Embedding of unchecked `Vector<T>::operator[](index)`: `assert(index < size_)`
is modelled as `none` (the debug assertion fires); otherwise the element at
`index` is returned. -/
def subscript (v : Vec α) (i : Nat) : Option α :=
  if i < v.size then v.elems[i]? else none

/-- Embedding of `Vector<T>::Erase(pos)` at index `i = pos - begin()`:
`assert(size_ > 0)` modelled as `none`; otherwise
`std::move(begin() + index + 1, end(), begin() + index)` shifts the tail one
slot left, the last slot is destroyed, `size_` decrements, and the returned
iterator is `begin() + index` (paired as the index). -/
def Erase (v : Vec α) (i : Nat) : Option (Vec α × Nat) :=
  if v.size = 0 then none
  else some (⟨v.elems.take i ++ v.elems.drop (i + 1), v.cap⟩, i)

/-- Slot contents produced by `Vector<T>::EmplaceWithoutReallocate` at index
`i`: construct the temporary `x`, placement-new the old last element into the
end slot, `std::move_backward` the range `[i, size_ - 1)` one slot right, and
move-assign the temporary into slot `i`.  Slots `[i + 1, size_ - 1)` receive
the old `[i, size_ - 2]` (`(l.drop i).dropLast`) and slot `size_` the old
last element. -/
def emplaceNoRealloc (l : List α) (i : Nat) (x : α) : List α :=
  l.take i ++ x :: ((l.drop i).dropLast ++ [(l.drop i).getLastD x])

/-- Embedding of `Vector<T>::EmplaceWithReallocate(pos, args...)`, success
path: allocate `newCap` slots, construct the new element at index `i`,
`SafeMove` the old `[0, i)` ahead of it and the old `[i, size_)` after it,
swap blocks; returns the new vector and the index of `begin() + index`. -/
def EmplaceWithReallocate (v : Vec α) (i : Nat) (x : α) : Vec α × Nat :=
  (⟨v.elems.take i ++ x :: v.elems.drop i, newCap v⟩, i)

/-- Embedding of `Vector<T>::EmplaceWithoutReallocate(pos, args...)`: shift
the tail right by one as `emplaceNoRealloc` and place `x` at index `i`;
capacity is untouched.  Returns the new vector and the index of
`begin() + index`. -/
def EmplaceWithoutReallocate (v : Vec α) (i : Nat) (x : α) : Vec α × Nat :=
  (⟨emplaceNoRealloc v.elems i x, v.cap⟩, i)

/-- Embedding of `Vector<T>::Emplace(pos, args...)` at index `i = pos - begin()`:
at `end()` delegate to `EmplaceBack` (returning the index of the new last
element), otherwise dispatch on `size_ == Capacity()` to the reallocating or
in-place variant. -/
def Emplace (v : Vec α) (i : Nat) (x : α) : Vec α × Nat :=
  if i = v.size then (EmplaceBack v x, v.size)
  else if v.size = v.cap then EmplaceWithReallocate v i x
  else EmplaceWithoutReallocate v i x

/-- Embedding of `Vector<T>::Swap(other)`: `data_.Swap(other.data_)` exchanges
the buffers (hence the element sequences) and capacities, `std::swap(size_,
other.size_)` the sizes. -/
def Swap (a b : Vec α) : Vec α × Vec α := (⟨b.elems, b.cap⟩, ⟨a.elems, a.cap⟩)

/-- Embedding of the default constructor `Vector()`: size 0, no allocation. -/
def mkDefault : Vec α := ⟨[], 0⟩

/-- Embedding of the sized constructor `Vector(size)` with default value `d`:
capacity `size`, `size` value-constructed elements. -/
def mkSized (d : α) (n : Nat) : Vec α := ⟨List.replicate n d, n⟩

/-- Embedding of the copy constructor `Vector(const Vector&)`, success path:
capacity `other.size_`, the elements copy-constructed in order. -/
def copyCtorV (src : Vec α) : Vec α := ⟨src.elems, src.size⟩

/-- Embedding of the move constructor `Vector(Vector&&)`: the destination
takes the source's block and size, the source is left with a null block
(capacity 0) and size 0.  Returns `(destination, source after)`. -/
def moveCtorV (src : Vec α) : Vec α × Vec α := (⟨src.elems, src.cap⟩, ⟨[], 0⟩)

/-- Observable state of a vector right after an exception propagated out of
one of its operations: the values of `size_` and `data_.Capacity()`, the
liveness of each slot of the original block over `[0, size_)` (`some x` =
slot still holds a live element of value `x`, `none` = the element in that
slot was destroyed), and the elements constructed in the discarded new block
whose destructor is never run. -/
structure ExcState (α : Type) where
  size : Nat
  cap : Nat
  slots : List (Option α)
  leaked : List α
deriving DecidableEq, Repr

/-- ExcState of a vector whose storage an exception left completely intact:
every slot of `[0, size_)` is still live with its original value and nothing
leaks. -/
def untouched (v : Vec α) : ExcState α :=
  ⟨v.size, v.cap, v.elems.map some, []⟩

/-- Embedding of `Vector<T>::EmplaceBack(args...)` with throwing element
operations, reallocation path included.  `mk` is the construction of the new
element from `args...` (`none` = it throws).  When full: allocate, construct
the new element at index `size_` of the new block, `SafeMove` the old
elements — with no try/catch, so if `SafeMove` throws, the new block is
deallocated raw and the just-constructed element's destructor never runs. -/
def EmplaceBackE (tr : Traits) (copy : α → Option α) (v : Vec α)
    (mk : Option α) : Except (ExcState α) (Vec α) :=
  if v.size = v.cap then
    match mk with
    | none => .error (untouched v)
    | some x =>
      match SafeMove tr copy v.elems with
      | (some dst, _) => .ok ⟨dst ++ [x], newCap v⟩
      | (none, rem) => .error ⟨v.size, v.cap, rem.map some, [x]⟩
  else
    match mk with
    | none => .error (untouched v)
    | some x => .ok ⟨v.elems ++ [x], v.cap⟩

/-- Embedding of `Vector<T>::EmplaceWithReallocate(pos, args...)` with
throwing element operations, at index `i = pos - begin()`.  Construct the
new element at index `i` of the new block; `SafeMove` the old `[0, i)` ahead
of it (on a throw, the catch destroys the new element and rethrows; the
sources are intact since the transfer threw before its `destroy_n`); then
`SafeMove` the old `[i, size_)` after it (on a throw, the catch destroys
slots `[0, i + 1)` of the new block and rethrows — but the first `SafeMove`
has already run `destroy_n` on the original slots `[0, i)`). -/
def EmplaceWithReallocE (tr : Traits) (copy : α → Option α) (v : Vec α)
    (i : Nat) (mk : Option α) : Except (ExcState α) (Vec α × Nat) :=
  match mk with
  | none => .error (untouched v)
  | some x =>
    match SafeMove tr copy (v.elems.take i) with
    | (none, rem) =>
      .error ⟨v.size, v.cap, rem.map some ++ (v.elems.drop i).map some, []⟩
    | (some pre, _) =>
      match SafeMove tr copy (v.elems.drop i) with
      | (none, rem) =>
        .error ⟨v.size, v.cap, List.replicate i none ++ rem.map some, []⟩
      | (some suf, _) => .ok (⟨pre ++ x :: suf, newCap v⟩, i)

/-- Semantics of `std::copy_n(src, n, dst)` over the first `src.length` slots
of `dst` with a fallible element copy assignment: assign in order; on a
failure the slots already assigned keep their new values and the rest keep
their old ones.  Returns the resulting destination slots paired with the
success flag. -/
def copyN (copy : α → Option α) : List α → List α → List α × Bool
  | [], d => (d, true)
  | _ :: _, [] => ([], true)
  | s :: ss, d :: ds =>
    match copy s with
    | none => (d :: ds, false)
    | some y =>
      let r := copyN copy ss ds
      (y :: r.1, r.2)

/-- Embedding of `Vector<T>::operator=(const Vector&)` for `this != &rhs`,
with throwing element copies.  If `rhs.size_ > data_.Capacity()`, build a
full copy and swap it in (a throw leaves `this` untouched).  Otherwise reuse
the storage: `std::copy_n` over `copy_elem = min(rhs.size_, size_)` elements,
then either destroy the excess tail or copy-construct `rhs`'s extra elements
into the uninitialized slots (the source's `copy_elem` value is resolved
inside each branch of the `rhs.size_ < size_` comparison).  Returns the
outcome (`none` = an exception propagated) paired with the destination's
state afterwards. -/
def copyAssignE (copy : α → Option α) (dst src : Vec α) :
    Option (Vec α) × Vec α :=
  if dst.cap < src.size then
    match copyList copy src.elems with
    | none => (none, dst)
    | some ys => (some ⟨ys, src.size⟩, ⟨ys, src.size⟩)
  else
    if src.size < dst.size then
      match copyN copy (src.elems.take src.size) dst.elems with
      | (r1, false) => (none, ⟨r1, dst.cap⟩)
      | (r1, true) =>
        (some ⟨r1.take src.size, dst.cap⟩, ⟨r1.take src.size, dst.cap⟩)
    else
      match copyN copy (src.elems.take dst.size) dst.elems with
      | (r1, false) => (none, ⟨r1, dst.cap⟩)
      | (r1, true) =>
        match copyList copy (src.elems.drop dst.size) with
        | none => (none, ⟨r1, dst.cap⟩)
        | some ys => (some ⟨r1 ++ ys, dst.cap⟩, ⟨r1 ++ ys, dst.cap⟩)

/-- Embedding of `Vector<T>::operator=(const Vector&)` including the
self-assignment guard `this != &rhs`, modelled by the flag `same`
(`true` = `this` and `&rhs` are the same object): when `same`, nothing
happens. -/
def opAssignCopy (same : Bool) (copy : α → Option α) (dst src : Vec α) :
    Option (Vec α) × Vec α :=
  if same then (some dst, dst) else copyAssignE copy dst src

/-- Embedding of `Vector<T>::operator=(Vector&&)` including the
self-assignment guard `this != &rhs` modelled by the flag `same`: when not
self, the destination takes the source's block and size and the source is
zeroed.  Returns `(destination after, source after)`. -/
def opAssignMove (same : Bool) (dst src : Vec α) : Vec α × Vec α :=
  if same then (dst, src) else (⟨src.elems, src.cap⟩, ⟨[], 0⟩)

/-- Dropping the last element and then appending it back restores a
non-empty list. -/
lemma dropLast_append_getLastD (l : List α) (x : α) (h : l ≠ []) :
    l.dropLast ++ [l.getLastD x] = l := by
  induction l with
  | nil => exact absurd rfl h
  | cons a t ih =>
    cases t with
    | nil => rfl
    | cons b u => simpa using ih (by simp)

/-- The slot contents produced by `EmplaceWithoutReallocate` coincide with
inserting the new value at index `i` of the element list. -/
lemma emplaceNoRealloc_eq (l : List α) (i : Nat) (x : α) (h : i < l.length) :
    emplaceNoRealloc l i x = l.take i ++ x :: l.drop i := by
  unfold emplaceNoRealloc
  have hne : l.drop i ≠ [] := by
    intro hc
    have := congrArg List.length hc
    simp at this
    omega
  rw [dropLast_append_getLastD (l.drop i) x hne]

/-- Facts about inserting a value at index `i ≤ l.length` of a list: the
length grows by one, the first `i` elements are unchanged, the new value
sits at index `i`, and the elements from index `i + 1` on are the original
elements from index `i` on. -/
lemma insert_list_facts (l : List α) (i : Nat) (x : α) (h : i ≤ l.length) :
    (l.take i ++ x :: l.drop i).length = l.length + 1
    ∧ (l.take i ++ x :: l.drop i).take i = l.take i
    ∧ (l.take i ++ x :: l.drop i)[i]? = some x
    ∧ (l.take i ++ x :: l.drop i).drop (i + 1) = l.drop i := by
  induction i generalizing l with
  | zero => simp
  | succ n ih =>
    cases l with
    | nil => simp at h
    | cons a t =>
      have h' : n ≤ t.length := by simpa using h
      obtain ⟨h1, h2, h3, h4⟩ := ih t h'
      refine ⟨by simpa using h1, by simpa using h2, by simpa using h3,
        by simpa using h4⟩

/-- Identity copies never throw: `copyList` with an always-succeeding copy
reproduces the source list. -/
lemma copyList_id (l : List α) : copyList (fun a => some a) l = some l := by
  induction l with
  | nil => rfl
  | cons a t ih => simp [copyList, ih]

/-- A successful `copyList` produces as many elements as the source has. -/
lemma copyList_length (copy : α → Option α) (l ys : List α)
    (h : copyList copy l = some ys) : ys.length = l.length := by
  induction l generalizing ys with
  | nil => simp [copyList] at h; simp [← h]
  | cons a t ih =>
    unfold copyList at h
    cases hc : copy a with
    | none => rw [hc] at h; simp at h
    | some y =>
      rw [hc] at h
      cases ht : copyList copy t with
      | none => rw [ht] at h; simp at h
      | some ts =>
        rw [ht] at h
        simp at h
        simp [← h, ih ts ht]

/-- Identity copy assignments never throw: `copyN` overwrites the first
`s.length` destination slots with the source values and keeps the rest. -/
lemma copyN_id (s d : List α) (h : s.length ≤ d.length) :
    copyN (fun a => some a) s d = (s ++ d.drop s.length, true) := by
  induction s generalizing d with
  | nil => simp [copyN]
  | cons a t ih =>
    cases d with
    | nil => simp at h
    | cons b u =>
      have h' : t.length ≤ u.length := by simpa using h
      simp [copyN, ih u h']

/-- The partially assigned destination reported by `copyN` always keeps the
destination length: assignment never changes the slot count. -/
lemma copyN_length (copy : α → Option α) (s d : List α) :
    (copyN copy s d).1.length = d.length := by
  induction s generalizing d with
  | nil => simp [copyN]
  | cons a t ih =>
    cases d with
    | nil => simp [copyN]
    | cons b u =>
      cases hc : copy a with
      | none => simp [copyN, hc]
      | some y => simp [copyN, hc, ih u]

/-- A copy assignment that completes leaves the destination well-formed:
the new size never exceeds the (possibly replaced) capacity. -/
lemma wf_copyAssignE (copy : α → Option α) (dst src : Vec α) (r : Vec α)
    (h : (copyAssignE copy dst src).1 = some r) : r.wf := by
  unfold copyAssignE at h
  by_cases hc : dst.cap < src.size
  · rw [if_pos hc] at h
    cases hl : copyList copy src.elems with
    | none => rw [hl] at h; simp at h
    | some ys =>
      rw [hl] at h
      simp only [Option.some.injEq] at h
      have hlen := copyList_length copy src.elems ys hl
      simp [← h, wf, size, hlen]
  · rw [if_neg hc] at h
    by_cases hs : src.size < dst.size
    · rw [if_pos hs] at h
      rcases hN : copyN copy (src.elems.take src.size) dst.elems with ⟨r1, ok⟩
      have hr1 : r1.length = dst.elems.length := by
        have := copyN_length copy (src.elems.take src.size) dst.elems
        rw [hN] at this
        exact this
      rw [hN] at h
      cases ok with
      | false => simp at h
      | true =>
        simp only [Option.some.injEq] at h
        rw [← h]
        simp only [wf, size, List.length_take] at hc hs hr1 ⊢
        omega
    · rw [if_neg hs] at h
      rcases hN : copyN copy (src.elems.take dst.size) dst.elems with ⟨r1, ok⟩
      have hr1 : r1.length = dst.elems.length := by
        have := copyN_length copy (src.elems.take dst.size) dst.elems
        rw [hN] at this
        exact this
      rw [hN] at h
      cases ok with
      | false => simp at h
      | true =>
        cases hl : copyList copy (src.elems.drop dst.size) with
        | none => rw [hl] at h; simp at h
        | some ys =>
          rw [hl] at h
          simp only [Option.some.injEq] at h
          have hlen := copyList_length copy (src.elems.drop dst.size) ys hl
          rw [← h]
          simp only [wf, size, List.length_append, List.length_drop] at *
          omega

/-- Resize preserves the size-within-capacity invariant. -/
lemma wf_Resize (d : α) (v : Vec α) (n : Nat) (hv : v.wf) :
    (Resize d v n).wf := by
  unfold Resize Reserve
  simp only [wf, size] at *
  by_cases h1 : n < v.elems.length
  · simp only [if_pos h1, List.length_take]
    omega
  · rw [if_neg h1]
    by_cases h2 : v.elems.length < n
    · by_cases h3 : n ≤ v.cap <;>
        simp [if_pos h2, h3, List.length_append, List.length_replicate] <;> omega
    · simpa [if_neg h2] using hv

/-- EmplaceBack preserves the size-within-capacity invariant. -/
lemma wf_EmplaceBack (v : Vec α) (x : α) (hv : v.wf) :
    (EmplaceBack v x).wf := by
  simp only [wf, size, EmplaceBack, newCap] at *
  by_cases h : v.elems.length = v.cap
  · rw [if_pos h]
    by_cases h0 : v.elems.length = 0
    · simp [h0]
    · simp only [if_neg h0, List.length_append, List.length_cons,
        List.length_nil]
      omega
  · rw [if_neg h]
    simp only [List.length_append, List.length_cons, List.length_nil]
    omega

/-- Emplace preserves the size-within-capacity invariant for any valid
insertion index. -/
lemma wf_Emplace (v : Vec α) (i : Nat) (x : α) (hv : v.wf) (hi : i ≤ v.size) :
    (Emplace v i x).1.wf := by
  unfold Emplace
  by_cases h1 : i = v.size
  · simpa [h1] using wf_EmplaceBack v x hv
  · rw [if_neg h1]
    have hilt : i < v.size := lt_of_le_of_ne hi h1
    by_cases h2 : v.size = v.cap
    · rw [if_pos h2]
      obtain ⟨hlen, -, -, -⟩ := insert_list_facts v.elems i x hi
      simp only [EmplaceWithReallocate, wf, size, newCap] at h2 hilt hlen ⊢
      by_cases h0 : v.elems.length = 0
      · omega
      · rw [if_neg h0]
        omega
    · rw [if_neg h2]
      obtain ⟨hlen, -, -, -⟩ := insert_list_facts v.elems i x hi
      simp only [EmplaceWithoutReallocate, wf, size] at h2 hilt hlen ⊢
      rw [emplaceNoRealloc_eq v.elems i x hilt]
      simp only [wf, size] at hv
      omega

/-- C1: the claim that a throwing element operation during a reallocating
insert or append leaves the vector's size, capacity and element values
exactly as before the call, with everything staged in the new block
destroyed, is violated by the code.  Take a copy-branch element type
(throwing move constructor, copy-constructible) whose copy of the value `5`
throws.  Inserting `9` at index 1 of the full vector `[7, 5]` fails during
the second `SafeMove`, but the first `SafeMove` has already run `destroy_n`
on the original slots `[0, 1)`: the state after the exception has slot 0
destroyed (`none`), not the untouched `[some 7, some 5]`.  And appending `9`
to the full vector `[5]` fails inside `EmplaceBack`'s unguarded `SafeMove`,
leaking the already-constructed element `9` (its destructor never runs, the
new block is deallocated raw). -/
theorem C1_reallocating_exception_code_bug :
    EmplaceWithReallocE ⟨false, true⟩ (fun n => if n = 5 then none else some n)
        (⟨[7, 5], 2⟩ : Vec Nat) 1 (some 9)
      = .error ⟨2, 2, [none, some 5], []⟩
    ∧ (untouched (⟨[7, 5], 2⟩ : Vec Nat)).slots = [some 7, some 5]
    ∧ EmplaceBackE ⟨false, true⟩ (fun n => if n = 5 then none else some n)
        (⟨[5], 1⟩ : Vec Nat) (some 9)
      = .error ⟨1, 1, [some 5], [9]⟩ :=
  ⟨rfl, rfl, rfl⟩

/-- C4: SafeMove moves the elements into the destination and destroys the
sources when the element type's move constructor cannot throw or the type is
not copy-constructible; otherwise it copy-constructs them and destroys the
sources only after every copy succeeded, so a copy failure leaves every
source element intact. -/
theorem C4_safe_move_spec (tr : Traits) (copy : α → Option α) (src : List α) :
    ((tr.nothrowMove = true ∨ tr.copyCtor = false) →
      SafeMove tr copy src = (some src, []))
    ∧ (tr.nothrowMove = false → tr.copyCtor = true →
        (∀ ys, copyList copy src = some ys →
          SafeMove tr copy src = (some ys, []))
        ∧ (copyList copy src = none → SafeMove tr copy src = (none, src))) := by
  constructor
  · intro h
    have hm : moveBranch tr = true := by
      rcases h with h | h <;> simp [moveBranch, h]
    simp [SafeMove, hm]
  · intro h1 h2
    have hm : moveBranch tr = false := by simp [moveBranch, h1, h2]
    refine ⟨fun ys hys => ?_, fun hn => ?_⟩
    · simp [SafeMove, hm, hys]
    · simp [SafeMove, hm, hn]

/-- C4 witness at concrete inputs: a nothrow-movable type moves `[1, 2]` and
destroys the sources; a copy-branch type whose copy of `5` throws leaves the
source `[5]` intact. -/
theorem C4_safe_move_spec_witness :
    SafeMove ⟨true, true⟩ (fun n : Nat => some n) [1, 2] = (some [1, 2], [])
    ∧ SafeMove ⟨false, true⟩ (fun n : Nat => if n = 5 then none else some n)
        [5] = (none, [5]) :=
  ⟨(C4_safe_move_spec ⟨true, true⟩ (fun n => some n) [1, 2]).1 (Or.inl rfl),
   ((C4_safe_move_spec ⟨false, true⟩
      (fun n => if n = 5 then none else some n) [5]).2 rfl rfl).2 (by decide)⟩

/-- C5: appending to a full vector reallocates to capacity
`max 1 (size × 2)` — at least doubling a nonzero capacity — appending never
reduces the capacity, and appending with spare room keeps the capacity and
constructs into the next free slot; the value sequence always becomes the
old one followed by the new element. -/
theorem C5_emplace_back_capacity (v : Vec α) (x : α) :
    (v.size = v.cap → (EmplaceBack v x).cap = max 1 (v.size * 2))
    ∧ (v.size = v.cap → 0 < v.cap → 2 * v.cap ≤ (EmplaceBack v x).cap)
    ∧ (v.size < v.cap → (EmplaceBack v x).cap = v.cap)
    ∧ v.cap ≤ (EmplaceBack v x).cap
    ∧ (EmplaceBack v x).elems = v.elems ++ [x] := by
  refine ⟨?_, ?_, ?_, ?_, ?_⟩
  · intro h
    simp only [EmplaceBack, if_pos h, newCap]
    by_cases h0 : v.size = 0
    · simp [h0]
    · simp only [if_neg h0]
      omega
  · intro h hpos
    simp only [EmplaceBack, if_pos h, newCap]
    by_cases h0 : v.size = 0
    · rw [h0] at h
      omega
    · simp only [if_neg h0]
      omega
  · intro h
    simp [EmplaceBack, if_neg (Nat.ne_of_lt h)]
  · by_cases h : v.size = v.cap
    · simp only [EmplaceBack, if_pos h, newCap]
      by_cases h0 : v.size = 0
      · rw [h0] at h
        simp [h0, ← h]
      · simp only [if_neg h0]
        omega
    · simp [EmplaceBack, if_neg h]
  · by_cases h : v.size = v.cap <;> simp [EmplaceBack, h]

/-- C5 witness: appending to the full vector `[4]` (capacity 1) doubles the
capacity to 2, and appending to `[9]` with capacity 2 keeps capacity 2. -/
theorem C5_emplace_back_capacity_witness :
    (EmplaceBack (⟨[4], 1⟩ : Vec Nat) 7).cap = max 1 (1 * 2)
    ∧ 2 * 1 ≤ (EmplaceBack (⟨[4], 1⟩ : Vec Nat) 7).cap
    ∧ (EmplaceBack (⟨[9], 2⟩ : Vec Nat) 7).cap = 2 :=
  ⟨(C5_emplace_back_capacity (⟨[4], 1⟩ : Vec Nat) 7).1 rfl,
   (C5_emplace_back_capacity (⟨[4], 1⟩ : Vec Nat) 7).2.1 rfl (by decide),
   (C5_emplace_back_capacity (⟨[9], 2⟩ : Vec Nat) 7).2.2.1 (by decide)⟩

/-- C8: Swap exchanges the two vectors' element sequences, capacities and
sizes, and swapping back restores the originals; it is a total function on
the states (never throws) defined with no element construction, destruction
or allocation — it only exchanges the owned buffer, capacity and size. -/
theorem C8_swap_exchanges (a b : Vec α) :
    (Swap a b).1.elems = b.elems ∧ (Swap a b).1.cap = b.cap
    ∧ (Swap a b).1.size = b.size
    ∧ (Swap a b).2.elems = a.elems ∧ (Swap a b).2.cap = a.cap
    ∧ (Swap a b).2.size = a.size
    ∧ Swap (Swap a b).1 (Swap a b).2 = (a, b) :=
  ⟨rfl, rfl, rfl, rfl, rfl, rfl, rfl⟩

/-- C9: PopBack on an empty vector and unchecked subscript at an index at or
beyond the size hit the debug assertion (modelled `none`); under the
preconditions the assertion is unreachable and PopBack destroys exactly the
last live element — the remaining elements are the unchanged first
`size - 1` — decrements the size by one and keeps the capacity (no
deallocation), while subscript returns the element at the index. -/
theorem C9_popback_subscript_precondition (v : Vec α) (i : Nat) :
    (v.size = 0 → PopBack v = none)
    ∧ (0 < v.size →
        PopBack v = some ⟨v.elems.dropLast, v.cap⟩
        ∧ v.elems.dropLast.length = v.size - 1
        ∧ v.elems.dropLast = v.elems.take (v.size - 1))
    ∧ (v.size ≤ i → subscript v i = none)
    ∧ (i < v.size → subscript v i = v.elems[i]? ∧ (subscript v i).isSome) := by
  refine ⟨?_, ?_, ?_, ?_⟩
  · intro h
    simp [PopBack, h]
  · intro h
    have hne : v.size ≠ 0 := by omega
    refine ⟨by simp [PopBack, hne], ?_, ?_⟩
    · simp [size, List.length_dropLast]
    · simp [size, List.dropLast_eq_take]
  · intro h
    simp [subscript, if_neg (Nat.not_lt.mpr h)]
  · intro h
    refine ⟨by simp [subscript, if_pos h], ?_⟩
    have h' : i < v.elems.length := by simpa [size] using h
    simp [subscript, if_pos h, List.getElem?_eq_getElem h']

/-- C9 witness: PopBack of the empty vector asserts; PopBack of `[1, 2]`
yields `[1]` with capacity kept; subscript 2 of the two-element vector
asserts, subscript 1 yields the element `2`. -/
theorem C9_popback_subscript_precondition_witness :
    PopBack (⟨[], 0⟩ : Vec Nat) = none
    ∧ PopBack (⟨[1, 2], 4⟩ : Vec Nat) = some ⟨[1], 4⟩
    ∧ subscript (⟨[1, 2], 4⟩ : Vec Nat) 2 = none
    ∧ subscript (⟨[1, 2], 4⟩ : Vec Nat) 1 = some 2 :=
  ⟨(C9_popback_subscript_precondition (⟨[], 0⟩ : Vec Nat) 0).1 rfl,
   ((C9_popback_subscript_precondition (⟨[1, 2], 4⟩ : Vec Nat) 0).2.1
      (by decide)).1,
   (C9_popback_subscript_precondition (⟨[1, 2], 4⟩ : Vec Nat) 2).2.2.1
      (by decide),
   ((C9_popback_subscript_precondition (⟨[1, 2], 4⟩ : Vec Nat) 1).2.2.2
      (by decide)).1⟩

/-- C10: both assignment operators detect self-assignment (the address
comparison modelled by the `same` flag being `true`) and do nothing, so self
copy assignment and self move assignment leave the vector's size, capacity
and elements unchanged. -/
theorem C10_self_assignment_identity (v : Vec α) (copy : α → Option α) :
    opAssignCopy true copy v v = (some v, v)
    ∧ opAssignMove true v v = (v, v) :=
  ⟨rfl, rfl⟩

/-- C2: Emplace/Insert at a valid index `i ≤ size` inserts the new value at
index `i`: the size grows by one, the first `i` elements are unchanged, the
elements from `i + 1` on are the original elements from `i` on, the new
element sits at index `i`, and the returned iterator is `begin() + i`;
inserting at `end()` delegates to EmplaceBack. -/
theorem C2_emplace_insert_spec (v : Vec α) (i : Nat) (x : α) (h : i ≤ v.size) :
    (Emplace v i x).1.elems = v.elems.take i ++ x :: v.elems.drop i
    ∧ (Emplace v i x).1.size = v.size + 1
    ∧ (Emplace v i x).1.elems.take i = v.elems.take i
    ∧ (Emplace v i x).1.elems[i]? = some x
    ∧ (Emplace v i x).1.elems.drop (i + 1) = v.elems.drop i
    ∧ (Emplace v i x).2 = i
    ∧ (i = v.size → Emplace v i x = (EmplaceBack v x, v.size)) := by
  have he : (Emplace v i x).1.elems
      = v.elems.take i ++ x :: v.elems.drop i := by
    unfold Emplace
    by_cases h1 : i = v.size
    · rw [if_pos h1]
      have hb : (EmplaceBack v x).elems = v.elems ++ [x] := by
        unfold EmplaceBack
        split <;> rfl
      show (EmplaceBack v x).elems = _
      rw [hb, h1]
      simp [size]
    · rw [if_neg h1]
      have hilt : i < v.size := lt_of_le_of_ne h h1
      by_cases h2 : v.size = v.cap
      · rw [if_pos h2]
        rfl
      · rw [if_neg h2]
        show emplaceNoRealloc v.elems i x = _
        exact emplaceNoRealloc_eq v.elems i x hilt
  have hr : (Emplace v i x).2 = i := by
    unfold Emplace
    by_cases h1 : i = v.size
    · rw [if_pos h1]
      exact h1.symm
    · rw [if_neg h1]
      by_cases h2 : v.size = v.cap
      · rw [if_pos h2]
        rfl
      · rw [if_neg h2]
        rfl
  obtain ⟨h1, h2, h3, h4⟩ := insert_list_facts v.elems i x h
  refine ⟨he, ?_, ?_, ?_, ?_, hr, ?_⟩
  · show (Emplace v i x).1.elems.length = v.elems.length + 1
    rw [he]
    exact h1
  · rw [he]
    exact h2
  · rw [he]
    exact h3
  · rw [he]
    exact h4
  · intro hend
    unfold Emplace
    rw [if_pos hend]

/-- C2 witness: inserting 99 at index 1 of the full vector `[1, 2, 3]`
yields `[1, 99, 2, 3]` and the returned iterator points at index 1. -/
theorem C2_emplace_insert_spec_witness :
    (Emplace (⟨[1, 2, 3], 3⟩ : Vec Nat) 1 99).1.elems = [1, 99, 2, 3]
    ∧ (Emplace (⟨[1, 2, 3], 3⟩ : Vec Nat) 1 99).2 = 1 :=
  ⟨(C2_emplace_insert_spec (⟨[1, 2, 3], 3⟩ : Vec Nat) 1 99 (by decide)).1,
   (C2_emplace_insert_spec (⟨[1, 2, 3], 3⟩ : Vec Nat) 1 99
      (by decide)).2.2.2.2.2.1⟩

/-- C3: copy assignment between distinct vectors makes the destination's
size equal the source's with element-wise equal values; when the source size
exceeds the destination capacity a full copy is built and swapped in
(capacity becomes the source size, and a failure of that copy leaves the
destination unmodified), otherwise the destination's storage and capacity
are reused. -/
theorem C3_copy_assign_spec (dst src : Vec α) (copy : α → Option α) :
    (copyAssignE (fun a => some a) dst src).1 =
      some ⟨src.elems, if dst.cap < src.size then src.size else dst.cap⟩
    ∧ (dst.cap < src.size → (copyAssignE copy dst src).1 = none →
        (copyAssignE copy dst src).2 = dst) := by
  constructor
  · unfold copyAssignE
    by_cases hc : dst.cap < src.size
    · rw [if_pos hc, copyList_id]
      simp [hc]
    · rw [if_neg hc, if_neg hc]
      by_cases hs : src.size < dst.size
      · rw [if_pos hs]
        have hts : src.elems.take src.size = src.elems := by
          simp [size]
        have hle : src.elems.length ≤ dst.elems.length := by
          simp only [size] at hs
          omega
        rw [hts, copyN_id src.elems dst.elems hle]
        show (some (⟨(src.elems ++ dst.elems.drop src.elems.length).take
            src.size, dst.cap⟩ : Vec α)) = _
        rw [show (src.elems ++ dst.elems.drop src.elems.length).take src.size
            = src.elems from List.take_left src.elems _]
      · rw [if_neg hs]
        have hds : dst.elems.length ≤ src.elems.length := by
          simp only [size] at hs
          omega
        have hslen : (src.elems.take dst.size).length = dst.elems.length := by
          rw [List.length_take]
          simp only [size]
          omega
        have hlt : (src.elems.take dst.size).length ≤ dst.elems.length := by
          omega
        rw [copyN_id _ _ hlt, hslen, List.drop_length, List.append_nil,
          copyList_id]
        show (some (⟨src.elems.take dst.size ++ src.elems.drop dst.size,
            dst.cap⟩ : Vec α)) = _
        rw [show src.elems.take dst.size ++ src.elems.drop dst.size
            = src.elems from List.take_append_drop _ _]
  · intro hc hnone
    unfold copyAssignE at hnone ⊢
    rw [if_pos hc] at hnone ⊢
    cases hl : copyList copy src.elems with
    | none => rfl
    | some ys =>
      rw [hl] at hnone
      simp at hnone

/-- C3 witness: assigning the one-element vector `[5]` into an empty
capacity-0 destination with a copy that throws on `5` leaves the
destination unmodified. -/
theorem C3_copy_assign_spec_witness :
    (copyAssignE (fun n : Nat => if n = 5 then none else some n)
      (⟨[], 0⟩ : Vec Nat) ⟨[5], 1⟩).2 = ⟨[], 0⟩ :=
  (C3_copy_assign_spec (⟨[], 0⟩ : Vec Nat) ⟨[5], 1⟩
    (fun n => if n = 5 then none else some n)).2 (by decide) (by decide)

/-- C6: erasing at a valid index `i < size` shifts the elements after `i`
one slot left — the element formerly at `i + 1` is now at `i` and earlier
elements are unchanged — decrements the size, keeps the capacity (no
deallocation), and returns an iterator to index `i`, which is `end()`
exactly when the last element was erased. -/
theorem C6_erase_spec (v : Vec α) (i : Nat) (h : i < v.size) :
    Erase v i = some (⟨v.elems.take i ++ v.elems.drop (i + 1), v.cap⟩, i)
    ∧ (v.elems.take i ++ v.elems.drop (i + 1)).length = v.size - 1
    ∧ (∀ j, j < i →
        (v.elems.take i ++ v.elems.drop (i + 1))[j]? = v.elems[j]?)
    ∧ (∀ j, i ≤ j →
        (v.elems.take i ++ v.elems.drop (i + 1))[j]? = v.elems[j + 1]?) := by
  have hlen : i < v.elems.length := by simpa [size] using h
  have htl : (v.elems.take i).length = i := by
    rw [List.length_take]
    omega
  refine ⟨?_, ?_, ?_, ?_⟩
  · have hne : v.size ≠ 0 := by omega
    simp [Erase, hne]
  · simp only [size, List.length_append, List.length_take, List.length_drop]
    omega
  · intro j hj
    rw [List.getElem?_append, if_pos (by rw [htl]; exact hj),
      List.getElem?_take, if_pos hj]
  · intro j hj
    rw [List.getElem?_append_right (by rw [htl]; exact hj), htl,
      List.getElem?_drop]
    congr 1
    omega

/-- C6 witness: erasing index 0 of `[1, 2, 3]` (capacity 4) yields `[2, 3]`
with capacity still 4 and the iterator at index 0. -/
theorem C6_erase_spec_witness :
    Erase (⟨[1, 2, 3], 4⟩ : Vec Nat) 0 = some (⟨[2, 3], 4⟩, 0) :=
  (C6_erase_spec (⟨[1, 2, 3], 4⟩ : Vec Nat) 0 (by decide)).1

/-- C7: every public operation leaves a vector satisfying the invariant
`size ≤ capacity`: default, sized, copy and move construction, copy and move
assignment, Reserve, Resize, EmplaceBack, PopBack, Emplace, Erase and Swap
(for the fallible operations, whenever they complete successfully). -/
theorem C7_size_le_capacity_invariant (d x : α) (n i : Nat)
    (v dst src a b : Vec α) (copy : α → Option α)
    (hv : v.wf) (ha : a.wf) (hb : b.wf) (hsrc : src.wf) (hi : i ≤ v.size) :
    (mkDefault : Vec α).wf
    ∧ (mkSized d n).wf
    ∧ (copyCtorV v).wf
    ∧ (moveCtorV v).1.wf
    ∧ (moveCtorV v).2.wf
    ∧ (∀ r, (copyAssignE copy dst src).1 = some r → r.wf)
    ∧ (opAssignMove false dst src).1.wf
    ∧ (opAssignMove false dst src).2.wf
    ∧ (Reserve v n).wf
    ∧ (Resize d v n).wf
    ∧ (EmplaceBack v x).wf
    ∧ (∀ r, PopBack v = some r → r.wf)
    ∧ (Emplace v i x).1.wf
    ∧ (∀ r, Erase v i = some r → r.1.wf)
    ∧ (Swap a b).1.wf
    ∧ (Swap a b).2.wf := by
  refine ⟨?_, ?_, ?_, ?_, ?_, ?_, ?_, ?_, ?_, ?_, ?_, ?_, ?_, ?_, ?_, ?_⟩
  · simp [mkDefault, wf, size]
  · simp [mkSized, wf, size]
  · simp [copyCtorV, wf, size]
  · exact hv
  · simp [moveCtorV, wf, size]
  · exact fun r hr => wf_copyAssignE copy dst src r hr
  · exact hsrc
  · simp [opAssignMove, wf, size]
  · simp only [Reserve, wf, size] at hv ⊢
    split
    · exact hv
    · show v.elems.length ≤ n
      omega
  · exact wf_Resize d v n hv
  · exact wf_EmplaceBack v x hv
  · intro r hr
    unfold PopBack at hr
    split at hr
    · exact absurd hr (by simp)
    · simp only [Option.some.injEq] at hr
      simp only [wf, size] at hv ⊢
      rw [← hr]
      simp only [List.length_dropLast]
      omega
  · exact wf_Emplace v i x hv hi
  · intro r hr
    unfold Erase at hr
    split at hr
    · exact absurd hr (by simp)
    · simp only [Option.some.injEq] at hr
      simp only [wf, size] at hv ⊢
      rw [← hr]
      simp only [List.length_append, List.length_take, List.length_drop]
      omega
  · exact hb
  · exact ha

/-- C7 witness: emplacing 1 at index 0 of `[3]` with capacity 2 yields a
vector still satisfying size ≤ capacity. -/
theorem C7_size_le_capacity_invariant_witness :
    (Emplace (⟨[3], 2⟩ : Vec Nat) 0 1).1.wf :=
  (C7_size_le_capacity_invariant 0 1 2 0 ⟨[3], 2⟩ ⟨[], 0⟩ ⟨[4], 1⟩ ⟨[1], 1⟩
    ⟨[], 2⟩ (fun a => some a) (by decide) (by decide) (by decide) (by decide)
    (by decide)).2.2.2.2.2.2.2.2.2.2.2.2.1

end Vec
